import Mathlib

/-!
# Verification of the escaped run-length codec (`src/session06/activity03.py`)

Shallow embedding of `rle_encode` / `rle_decode` and proofs of the
specification's claims about them.  Strings are modelled through their
character lists.  Python's character predicates are modelled on the full
Unicode database of the CPython runtime: `str.isdigit` is `isPyDigit`
(`Numeric_Type` `Decimal` or `Digit`), the regex class `\d` is
`isReDigit` (category `Nd`), the class `[1-9]` is the ASCII comparison it
literally is, and `int` maps each `Nd` character to its decimal value
(`digitVal`).  Each Python `raise ValueError(...)` site is mapped to a
constructor of `RleError` named after the spec's error taxonomy.
-/

namespace Rle

/-- The distinct `ValueError` sites of the Python code, named after the
spec's error taxonomy (§7).  `emptyInput` is `rle_encode`'s
"text must be non-empty"; `missingHeader` is `rle_decode`'s
"Encoded input must begin with the '##00' header"; `danglingEscape` is
"Dangling escape '#' at end of encoded string"; `invalidEscape` is
"Invalid escape sequence: '#' must be followed by '#' or a digit". -/
inductive RleError where
  | emptyInput
  | missingHeader
  | danglingEscape
  | invalidEscape
deriving DecidableEq, Repr

/-- The fixed 4-character header `##00`. -/
def header : List Char := ['#', '#', '0', '0']

/-- Starts of the ten-codepoint blocks of Unicode general category `Nd`
(`Numeric_Type=Decimal`): block `lo` holds the decimal digits `0`–`9` at
codepoints `lo`…`lo+9`.  This is the character set matched by Python's
regex class `\d` and valued by `int`.  Enumerated from the CPython
runtime's `unicodedata` (every `Nd` codepoint lies in exactly one such
block, at the offset equal to its digit value). -/
def ndBlockStarts : List Nat :=
  [0x30, 0x660, 0x6F0, 0x7C0, 0x966, 0x9E6, 0xA66, 0xAE6, 0xB66, 0xBE6,
   0xC66, 0xCE6, 0xD66, 0xDE6, 0xE50, 0xED0, 0xF20, 0x1040, 0x1090,
   0x17E0, 0x1810, 0x1946, 0x19D0, 0x1A80, 0x1A90, 0x1B50, 0x1BB0,
   0x1C40, 0x1C50, 0xA620, 0xA8D0, 0xA900, 0xA9D0, 0xA9F0, 0xAA50,
   0xABF0, 0xFF10, 0x104A0, 0x10D30, 0x11066, 0x110F0, 0x11136, 0x111D0,
   0x112F0, 0x11450, 0x114D0, 0x11650, 0x116C0, 0x11730, 0x118E0,
   0x11950, 0x11C50, 0x11D50, 0x11DA0, 0x16A60, 0x16AC0, 0x16B50,
   0x1D7CE, 0x1D7D8, 0x1D7E2, 0x1D7EC, 0x1D7F6, 0x1E140, 0x1E2F0,
   0x1E950, 0x1FBF0]

/-- Codepoint ranges of the characters with Unicode `Numeric_Type=Digit`:
accepted by `str.isdigit` in addition to category `Nd` (superscripts,
subscripts, circled digits, …), but not matched by `\d`.  Enumerated from
the CPython runtime (`c.isdigit() and category(c) != 'Nd'`). -/
def digitExtraRanges : List (Nat × Nat) :=
  [(0xB2, 0xB3), (0xB9, 0xB9), (0x1369, 0x1371), (0x19DA, 0x19DA),
   (0x2070, 0x2070), (0x2074, 0x2079), (0x2080, 0x2089), (0x2460, 0x2468),
   (0x2474, 0x247C), (0x2488, 0x2490), (0x24EA, 0x24EA), (0x24F5, 0x24FD),
   (0x24FF, 0x24FF), (0x2776, 0x277E), (0x2780, 0x2788), (0x278A, 0x2792),
   (0x10A40, 0x10A43), (0x10E60, 0x10E68), (0x11052, 0x1105A),
   (0x1F100, 0x1F10A)]

/-- Python's regex `\d` on a single character: Unicode category `Nd`. -/
def isReDigit (c : Char) : Bool :=
  ndBlockStarts.any (fun lo => decide (lo ≤ c.toNat) && decide (c.toNat ≤ lo + 9))

/-- Python's `str.isdigit` on a single character: `Numeric_Type` is
`Decimal` (category `Nd`) or `Digit`. -/
def isPyDigit (c : Char) : Bool :=
  isReDigit c ||
    digitExtraRanges.any (fun p => decide (p.1 ≤ c.toNat) && decide (c.toNat ≤ p.2))

/-- The decimal value of an `Nd` digit character: its offset in its
ten-codepoint block (what Python's `int` uses per character; 0 on
non-digits, on which `int` would instead raise — never reached here,
since only regex-matched digits are valued). -/
def digitVal (c : Char) : Nat :=
  match ndBlockStarts.find?
      (fun lo => decide (lo ≤ c.toNat) && decide (c.toNat ≤ lo + 9)) with
  | some lo => c.toNat - lo
  | none => 0

/-- `_encode_token`: token representation of a single literal character,
before any run count.  `'#' -> "##"`, digit (`ch.isdigit()`)
`d -> "#d"`, other `c -> c`. -/
def encodeToken (ch : Char) : List Char :=
  if ch = '#' then ['#', '#']
  else if isPyDigit ch then ['#', ch]
  else [ch]

/-- The decimal digit string of `n`, as Python's `str(n)` produces for a
positive integer: most-significant digit first, no leading zeros. -/
def natDigits (n : Nat) : List Char :=
  if n < 10 then [Nat.digitChar n]
  else natDigits (n / 10) ++ [Nat.digitChar (n % 10)]
termination_by n
decreasing_by exact Nat.div_lt_self (by omega) (by omega)

/-- The digits the encoder appends after a token: `str(cnt)` when
`cnt > 1`, nothing otherwise. -/
def countDigits (cnt : Nat) : List Char :=
  if cnt > 1 then natDigits cnt else []

/-- One emitted run: the token of `cur` followed by its optional count. -/
def emitRun (cur : Char) (cnt : Nat) : List Char :=
  encodeToken cur ++ countDigits cnt

/-- The encoder's aggregation loop (`for ch in text[1:]` with state
`cur`/`cnt`, plus the final-run emission). -/
def encodeRuns : Char → Nat → List Char → List Char
  | cur, cnt, [] => emitRun cur cnt
  | cur, cnt, ch :: rest =>
    if ch = cur then encodeRuns cur (cnt + 1) rest
    else emitRun cur cnt ++ encodeRuns ch 1 rest

/-- `rle_encode`: reject empty input, otherwise header followed by the
encoded runs. -/
def rle_encode (text : String) : Except RleError String :=
  match text.data with
  | [] => .error .emptyInput
  | c :: rest => .ok ⟨header ++ encodeRuns c 1 rest⟩

/-- `int(m.group(0))` on the matched digit string: base-10 fold of the
per-character decimal digit values. -/
def digitsToNat (ds : List Char) : Nat :=
  ds.foldl (fun a c => a * 10 + digitVal c) 0

/-- The maximal digit span at the front of `s` (the `\d*` part of the
count regex), with the remaining suffix. -/
def splitDigits : List Char → List Char × List Char
  | [] => ([], [])
  | c :: rest =>
    if isReDigit c then
      let p := splitDigits rest
      (c :: p.1, p.2)
    else ([], c :: rest)

/-- `_read_count`: match the regex `[1-9]\d*` at the front of `s`; on a
match return its integer value and the rest, otherwise count 1 and `s`
unchanged (no explicit count). -/
def readCount (s : List Char) : Nat × List Char :=
  match s with
  | [] => (1, [])
  | c :: rest =>
    if '1' ≤ c ∧ c ≤ '9' then
      let p := splitDigits rest
      (digitsToNat (c :: p.1), p.2)
    else (1, s)

/-- The decoder's `while i < n` loop over the body: a `#` opens an escape
pair (dangling or invalid escapes are rejected), any other character is a
plain literal; each literal is followed by an optional count and is
replicated that many times. -/
def decodeBody (s : List Char) : Except RleError (List Char) :=
  match s with
  | [] => .ok []
  | ch :: rest =>
    if ch = '#' then
      match rest with
      | [] => .error .danglingEscape
      | nxt :: rest2 =>
        if nxt = '#' ∨ isPyDigit nxt then
          (decodeBody (readCount rest2).2).map
            (fun t => List.replicate (readCount rest2).1 nxt ++ t)
        else .error .invalidEscape
    else
      (decodeBody (readCount rest).2).map
        (fun t => List.replicate (readCount rest).1 ch ++ t)
termination_by s.length
decreasing_by
  all_goals
    have hs : ∀ s : List Char, (splitDigits s).2.length ≤ s.length := by
      intro s
      induction s with
      | nil => simp [splitDigits]
      | cons c rest ih =>
        simp only [splitDigits]
        split
        · simpa using Nat.le_succ_of_le ih
        · simp
    have hr : ∀ s : List Char, (readCount s).2.length ≤ s.length := by
      intro s
      cases s with
      | nil => simp [readCount]
      | cons c rest =>
        simp only [readCount]
        split
        · simpa using Nat.le_succ_of_le (hs rest)
        · simp
    simp only [List.length_cons]
    first
      | exact Nat.lt_succ_of_le (Nat.le_succ_of_le (hr _))
      | exact Nat.lt_succ_of_le (hr _)

/-- `rle_decode`: require the `##00` header (`startswith`), then decode
the body (`encoded[4:]`). -/
def rle_decode (encoded : String) : Except RleError String :=
  if encoded.data.take 4 = header then
    (decodeBody (encoded.data.drop 4)).map (fun l => ⟨l⟩)
  else .error .missingHeader

/-- The first character of `l`, if any, is not a `\d` digit.  This is
the condition under which `_read_count` never swallows characters of a
following token. -/
def headNotDigit : List Char → Prop
  | [] => True
  | c :: _ => isReDigit c = false

/-! ## Supporting lemmas -/

theorem isReDigit_digitChar (n : Nat) (h : n < 10) :
    isReDigit (Nat.digitChar n) = true := by
  interval_cases n <;> decide

theorem digitVal_digitChar (n : Nat) (h : n < 10) :
    digitVal (Nat.digitChar n) = n := by
  interval_cases n <;> decide

theorem isReDigit_hash : isReDigit '#' = false := by decide

theorem isReDigit_isPyDigit (c : Char) (h : isReDigit c = true) :
    isPyDigit c = true := by
  simp [isPyDigit, h]

theorem digitChar_bounds (n : Nat) (h1 : 1 ≤ n) (h2 : n < 10) :
    '1' ≤ Nat.digitChar n ∧ Nat.digitChar n ≤ '9' := by
  interval_cases n <;> exact ⟨by decide, by decide⟩

theorem natDigits_all_digit (n : Nat) :
    ∀ c ∈ natDigits n, isReDigit c = true := by
  induction n using Nat.strong_induction_on with
  | _ n ih =>
    rw [natDigits]
    split
    · next h =>
      intro c hc
      simp only [List.mem_singleton] at hc
      exact hc ▸ isReDigit_digitChar n h
    · next h =>
      intro c hc
      rcases List.mem_append.mp hc with hc | hc
      · exact ih (n / 10) (Nat.div_lt_self (by omega) (by omega)) c hc
      · simp only [List.mem_singleton] at hc
        exact hc ▸ isReDigit_digitChar (n % 10) (Nat.mod_lt n (by omega))

theorem natDigits_head (n : Nat) (h : 1 ≤ n) :
    ∃ d ds, natDigits n = d :: ds ∧ '1' ≤ d ∧ d ≤ '9' := by
  induction n using Nat.strong_induction_on with
  | _ n ih =>
    rw [natDigits]
    split
    · next hlt =>
      exact ⟨Nat.digitChar n, [], rfl, digitChar_bounds n h hlt⟩
    · next hlt =>
      obtain ⟨d, ds, hds, hd⟩ :=
        ih (n / 10) (Nat.div_lt_self (by omega) (by omega))
          (Nat.one_le_div_iff (by omega) |>.mpr (by omega))
      exact ⟨d, ds ++ [Nat.digitChar (n % 10)], by rw [hds]; rfl, hd⟩

theorem digitsToNat_append_singleton (xs : List Char) (c : Char) :
    digitsToNat (xs ++ [c]) = digitsToNat xs * 10 + digitVal c := by
  simp [digitsToNat, List.foldl_append]

theorem digitsToNat_natDigits (n : Nat) : digitsToNat (natDigits n) = n := by
  induction n using Nat.strong_induction_on with
  | _ n ih =>
    rw [natDigits]
    split
    · next h =>
      simp [digitsToNat, digitVal_digitChar n h]
    · next h =>
      rw [digitsToNat_append_singleton,
        ih (n / 10) (Nat.div_lt_self (by omega) (by omega)),
        digitVal_digitChar (n % 10) (Nat.mod_lt n (by omega))]
      omega

theorem splitDigits_digits_append (ds tail : List Char)
    (hds : ∀ c ∈ ds, isReDigit c = true) (htail : headNotDigit tail) :
    splitDigits (ds ++ tail) = (ds, tail) := by
  induction ds with
  | nil =>
    match tail with
    | [] => rfl
    | c :: rest =>
      simp only [headNotDigit] at htail
      simp [splitDigits, htail]
  | cons c ds ih =>
    have hc : isReDigit c = true := hds c (by simp)
    have ih' := ih (fun x hx => hds x (by simp [hx]))
    simp [splitDigits, hc, ih']

theorem count_start_isReDigit (c : Char) (h1 : '1' ≤ c) (h2 : c ≤ '9') :
    isReDigit c = true := by
  have hc1 : 49 ≤ c.toNat := h1
  have hc2 : c.toNat ≤ 57 := h2
  simp only [isReDigit, List.any_eq_true, Bool.and_eq_true, decide_eq_true_eq]
  exact ⟨0x30, by simp [ndBlockStarts], by omega, by omega⟩

theorem not_count_start_of_not_digit (c : Char) (h : isReDigit c = false) :
    ¬('1' ≤ c ∧ c ≤ '9') := by
  intro hc
  rw [count_start_isReDigit c hc.1 hc.2] at h
  exact Bool.noConfusion h

theorem readCount_countDigits (cnt : Nat) (tail : List Char) (h : 1 ≤ cnt)
    (ht : headNotDigit tail) :
    readCount (countDigits cnt ++ tail) = (cnt, tail) := by
  by_cases hgt : cnt > 1
  · obtain ⟨d, ds, hds, hd1, hd9⟩ := natDigits_head cnt h
    have hall : ∀ c ∈ ds, isReDigit c = true := fun c hc =>
      natDigits_all_digit cnt c (by rw [hds]; exact List.mem_cons_of_mem d hc)
    have hsplit := splitDigits_digits_append ds tail hall ht
    have hval := digitsToNat_natDigits cnt
    rw [hds] at hval
    simp only [countDigits, if_pos hgt, hds, List.cons_append, readCount]
    split
    · simp [hsplit, hval]
    · next hcond => exact absurd ⟨hd1, hd9⟩ hcond
  · have hcnt1 : cnt = 1 := by omega
    subst hcnt1
    simp only [countDigits, if_neg hgt, List.nil_append]
    cases tail with
    | nil => rfl
    | cons c rest =>
      simp only [headNotDigit] at ht
      simp [readCount, not_count_start_of_not_digit c ht]

theorem decode_emitRun (cur : Char) (cnt : Nat) (tail : List Char)
    (hcnt : 1 ≤ cnt) (ht : headNotDigit tail) :
    decodeBody (emitRun cur cnt ++ tail) =
      (decodeBody tail).map (fun t => List.replicate cnt cur ++ t) := by
  have hrc := readCount_countDigits cnt tail hcnt ht
  by_cases hhash : cur = '#'
  · subst hhash
    simp only [emitRun, encodeToken, if_pos rfl, List.cons_append,
      List.append_assoc]
    rw [decodeBody.eq_def]
    simp [hrc]
  · by_cases hdig : isPyDigit cur = true
    · simp only [emitRun, encodeToken, if_neg hhash, if_pos hdig,
        List.cons_append, List.append_assoc]
      rw [decodeBody.eq_def]
      simp [hhash, hdig, hrc]
    · simp only [emitRun, encodeToken, if_neg hhash, if_neg hdig,
        List.cons_append, List.append_assoc]
      rw [decodeBody.eq_def]
      simp [hhash, hdig, hrc]

theorem encodeRuns_shape (rest : List Char) :
    ∀ cur cnt, ∃ t, encodeRuns cur cnt rest = encodeToken cur ++ t := by
  induction rest with
  | nil => exact fun cur cnt => ⟨countDigits cnt, rfl⟩
  | cons ch rest ih =>
    intro cur cnt
    by_cases hch : ch = cur
    · obtain ⟨t, htt⟩ := ih cur (cnt + 1)
      exact ⟨t, by rw [encodeRuns, if_pos hch, htt]⟩
    · exact ⟨countDigits cnt ++ encodeRuns ch 1 rest,
        by rw [encodeRuns, if_neg hch, emitRun, List.append_assoc]⟩

theorem encodeRuns_headNotDigit (rest : List Char) (cur : Char) (cnt : Nat) :
    headNotDigit (encodeRuns cur cnt rest) := by
  obtain ⟨t, htt⟩ := encodeRuns_shape rest cur cnt
  rw [htt]
  by_cases hhash : cur = '#'
  · subst hhash
    simp [encodeToken, headNotDigit, isReDigit_hash]
  · by_cases hdig : isPyDigit cur = true
    · simp [encodeToken, hhash, hdig, headNotDigit, isReDigit_hash]
    · have hre : isReDigit cur = false := by
        cases hr : isReDigit cur with
        | false => rfl
        | true => exact absurd (isReDigit_isPyDigit cur hr) (by simp [hdig])
      simp only [encodeToken, if_neg hhash, if_neg hdig, List.cons_append]
      simpa [headNotDigit] using hre

theorem decode_encodeRuns (rest : List Char) :
    ∀ cur cnt, 1 ≤ cnt →
      decodeBody (encodeRuns cur cnt rest) =
        .ok (List.replicate cnt cur ++ rest) := by
  induction rest with
  | nil =>
    intro cur cnt hcnt
    have h := decode_emitRun cur cnt [] hcnt trivial
    rw [List.append_nil] at h
    rw [encodeRuns, h]
    simp [decodeBody, Except.map]
  | cons ch rest ih =>
    intro cur cnt hcnt
    by_cases hch : ch = cur
    · subst hch
      rw [encodeRuns, if_pos rfl, ih ch (cnt + 1) (by omega)]
      rw [List.replicate_succ' cnt ch, List.append_assoc]
      rfl
    · rw [encodeRuns, if_neg hch,
        decode_emitRun cur cnt _ hcnt (encodeRuns_headNotDigit rest ch 1),
        ih ch 1 (by omega)]
      simp [Except.map, List.replicate]

theorem data_eq_cons_of_ne_empty (s : String) (h : s ≠ "") :
    ∃ c rest, s.data = c :: rest := by
  cases hs : s.data with
  | nil =>
    exfalso
    apply h
    cases s with
    | mk d =>
      simp only at hs
      rw [hs]
  | cons c rest => exact ⟨c, rest, rfl⟩

theorem rle_decode_header_append (l : List Char) :
    rle_decode ⟨header ++ l⟩ = (decodeBody l).map (fun t => ⟨t⟩) := by
  rw [rle_decode]
  rw [show (String.mk (header ++ l)).data = header ++ l from rfl]
  rw [List.take_left' (show List.length header = 4 from rfl), if_pos rfl]
  rw [List.drop_left' (show List.length header = 4 from rfl)]

theorem encodeRuns_of_chain (rest : List Char) :
    ∀ c, List.Chain' (fun a b => a ≠ b) (c :: rest) →
      encodeRuns c 1 rest = encodeToken c ++ (rest.map encodeToken).flatten := by
  induction rest with
  | nil =>
    intro c _
    simp [encodeRuns, emitRun, countDigits]
  | cons ch rest ih =>
    intro c hchain
    rw [List.chain'_cons] at hchain
    rw [encodeRuns, if_neg (Ne.symm hchain.1), ih ch hchain.2]
    simp [emitRun, countDigits, List.append_assoc]

theorem splitDigits_snd_length_le (s : List Char) :
    (splitDigits s).2.length ≤ s.length := by
  induction s with
  | nil => simp [splitDigits]
  | cons c rest ih =>
    simp only [splitDigits]
    split
    · simpa using Nat.le_succ_of_le ih
    · simp

theorem readCount_snd_length_le (s : List Char) :
    (readCount s).2.length ≤ s.length := by
  cases s with
  | nil => simp [readCount]
  | cons c rest =>
    simp only [readCount]
    split
    · simpa using Nat.le_succ_of_le (splitDigits_snd_length_le rest)
    · simp

theorem decodeBody_nil : decodeBody [] = .ok [] := by
  rw [decodeBody.eq_def]

theorem decodeBody_cons_hash_nil : decodeBody ['#'] = .error .danglingEscape := by
  rw [decodeBody.eq_def]
  simp

theorem decodeBody_cons_hash_escape (nxt : Char) (rest2 : List Char)
    (hcond : nxt = '#' ∨ isPyDigit nxt = true) :
    decodeBody ('#' :: nxt :: rest2) =
      (decodeBody (readCount rest2).2).map
        (fun t => List.replicate (readCount rest2).1 nxt ++ t) := by
  rw [decodeBody.eq_def]
  rcases hcond with rfl | hd
  · simp
  · simp [hd]

theorem decodeBody_cons_hash_invalid (c : Char) (hc : c ≠ '#')
    (hd : isPyDigit c = false) (rest : List Char) :
    decodeBody ('#' :: c :: rest) = .error .invalidEscape := by
  rw [decodeBody.eq_def]
  simp [hc, hd]

theorem decodeBody_cons_plain (ch : Char) (rest : List Char) (hch : ch ≠ '#') :
    decodeBody (ch :: rest) =
      (decodeBody (readCount rest).2).map
        (fun t => List.replicate (readCount rest).1 ch ++ t) := by
  rw [decodeBody.eq_def]
  simp [hch]

theorem except_map_eq_ok {α β ε : Type} {f : α → β} {e : Except ε α} {b : β}
    (h : e.map f = .ok b) : ∃ a, e = .ok a ∧ b = f a := by
  cases e with
  | error err => simp [Except.map] at h
  | ok a => exact ⟨a, rfl, by simpa [Except.map] using h.symm⟩

theorem splitDigits_append_hash (s u : List Char) :
    splitDigits (s ++ '#' :: u) =
      ((splitDigits s).1, (splitDigits s).2 ++ '#' :: u) := by
  induction s with
  | nil => simp [splitDigits, isReDigit_hash]
  | cons c r ih =>
    by_cases hcr : isReDigit c = true
    · simp [splitDigits, hcr, ih]
    · simp [splitDigits, hcr]

theorem readCount_append_hash (s u : List Char) :
    readCount (s ++ '#' :: u) =
      ((readCount s).1, (readCount s).2 ++ '#' :: u) := by
  cases s with
  | nil => simp [readCount, show ¬('1' ≤ '#' ∧ '#' ≤ '9') by decide]
  | cons c r =>
    by_cases hc : '1' ≤ c ∧ c ≤ '9'
    · simp [readCount, hc, splitDigits_append_hash]
    · simp [readCount, hc]

theorem decodeBody_append_hash_aux (u : List Char) (n : Nat) :
    ∀ b : List Char, b.length ≤ n → ∀ t, decodeBody b = .ok t →
      decodeBody (b ++ '#' :: u) =
        (decodeBody ('#' :: u)).map (fun w => t ++ w) := by
  induction n with
  | zero =>
    intro b hb t ht
    cases b with
    | nil =>
      rw [decodeBody_nil] at ht
      obtain rfl : ([] : List Char) = t := by simpa using ht
      cases hx : decodeBody ('#' :: u) <;> simp [hx, Except.map]
    | cons ch rest => simp at hb
  | succ n ih =>
    intro b hb t ht
    cases b with
    | nil =>
      rw [decodeBody_nil] at ht
      obtain rfl : ([] : List Char) = t := by simpa using ht
      cases hx : decodeBody ('#' :: u) <;> simp [hx, Except.map]
    | cons ch rest =>
      by_cases hch : ch = '#'
      · subst hch
        cases rest with
        | nil => rw [decodeBody_cons_hash_nil] at ht; exact absurd ht (by simp)
        | cons nxt rest2 =>
          by_cases hcond : nxt = '#' ∨ isPyDigit nxt = true
          · rw [decodeBody_cons_hash_escape nxt rest2 hcond] at ht
            obtain ⟨t', ht', rfl⟩ := except_map_eq_ok ht
            have hlen : (readCount rest2).2.length ≤ n := by
              have := readCount_snd_length_le rest2
              simp only [List.length_cons] at hb
              omega
            have ihh := ih (readCount rest2).2 hlen t' ht'
            rw [List.cons_append, List.cons_append,
              decodeBody_cons_hash_escape nxt (rest2 ++ '#' :: u) hcond,
              readCount_append_hash rest2 u, ihh]
            cases hx : decodeBody ('#' :: u) <;>
              simp [Except.map, List.append_assoc]
          · have h1 : nxt ≠ '#' := fun h => hcond (Or.inl h)
            have h2 : isPyDigit nxt = false := by
              cases hx : isPyDigit nxt with
              | false => rfl
              | true => exact absurd (Or.inr hx) hcond
            rw [decodeBody_cons_hash_invalid nxt h1 h2 rest2] at ht
            exact absurd ht (by simp)
      · rw [decodeBody_cons_plain ch rest hch] at ht
        obtain ⟨t', ht', rfl⟩ := except_map_eq_ok ht
        have hlen : (readCount rest).2.length ≤ n := by
          have := readCount_snd_length_le rest
          simp only [List.length_cons] at hb
          omega
        have ihh := ih (readCount rest).2 hlen t' ht'
        rw [List.cons_append, decodeBody_cons_plain ch (rest ++ '#' :: u) hch,
          readCount_append_hash rest u, ihh]
        cases hx : decodeBody ('#' :: u) <;>
          simp [Except.map, List.append_assoc]

/-- After any successfully decodable body prefix `b`, the parse of
`b ++ '#' :: u` reaches the `'#'` at a token boundary and continues as the
parse of `'#' :: u` does. -/
theorem decodeBody_append_hash (b t : List Char) (ht : decodeBody b = .ok t)
    (u : List Char) :
    decodeBody (b ++ '#' :: u) =
      (decodeBody ('#' :: u)).map (fun w => t ++ w) :=
  decodeBody_append_hash_aux u b.length b (le_refl _) t ht

/-! ## The claims -/

/-- Claim C1: round-trip law — for every non-empty string `s` (over any
alphabet, including digits, `#` and whitespace), `rle_encode` succeeds and
`rle_decode` of its output returns exactly `s`. -/
theorem round_trip_ok (s : String) (h : s ≠ "") :
    ∃ enc, rle_encode s = .ok enc ∧ rle_decode enc = .ok s := by
  obtain ⟨c, rest, hdata⟩ := data_eq_cons_of_ne_empty s h
  refine ⟨⟨header ++ encodeRuns c 1 rest⟩, by simp only [rle_encode, hdata], ?_⟩
  rw [rle_decode_header_append, decode_encodeRuns rest c 1 (le_refl 1)]
  simp only [Except.map]
  rw [show List.replicate 1 c ++ rest = s.data by rw [hdata]; rfl]

theorem round_trip_ok_witness : ("Z0##A" : String) ≠ "" ∧
    ∃ enc, rle_encode "Z0##A" = .ok enc ∧ rle_decode enc = .ok "Z0##A" :=
  ⟨by decide, round_trip_ok "Z0##A" (by decide)⟩

/-- Claim C2, counterexample: the claim says `decode("##00A01")` fails with
`MalformedCount`; the code instead returns `"A0"` without any error (the
count regex simply does not match at a leading `'0'`, and the `'0'` is then
consumed as a bare literal token). -/
theorem decode_leading_zero_no_error : rle_decode "##00A01" = .ok "A0" := by
  simp +decide [rle_decode, decodeBody, header, readCount, splitDigits,
    digitsToNat, Except.map]

/-- Claim C2, amended: `rle_decode` never parses a digit sequence with a
leading zero as a Count — `_read_count` leaves a leading `'0'` unconsumed
(the count defaults to 1) and the `'0'` is then read as a bare literal
token, so `decode("##00A01")` succeeds and returns `"A0"` instead of
raising an error. -/
theorem leading_zero_not_count :
    (∀ rest : List Char, readCount ('0' :: rest) = (1, '0' :: rest)) ∧
    rle_decode "##00A01" = .ok "A0" := by
  refine ⟨fun rest => ?_, ?_⟩
  · simp [readCount, show ¬('1' ≤ '0' ∧ '0' ≤ '9') by decide]
  · simp +decide [rle_decode, decodeBody, header, readCount, splitDigits,
      digitsToNat, Except.map]

/-- Claim C3: the spec (and the decoder's own docstring) state
`decode("##00Z#10##2A") == "Z0##A"`; the code actually returns `"Z10##A"`
on that input — the body parses as `Z`, `#1` (literal `1`, no count since
the following `0` cannot start a count), `0` (bare literal), `##2`, `A`. -/
theorem decode_docstring_example_value :
    rle_decode "##00Z#10##2A" = .ok "Z10##A" := by
  simp +decide [rle_decode, decodeBody, header, readCount, splitDigits,
    digitsToNat, Except.map]

/-- Claim C4: the seven literal encode scenarios of the spec, exactly as
stated. -/
theorem encode_literal_scenarios :
    rle_encode "A" = .ok "##00A" ∧ rle_encode "AAAA" = .ok "##00A4" ∧
    rle_encode "#" = .ok "##00##" ∧ rle_encode "###" = .ok "##00##3" ∧
    rle_encode "5" = .ok "##00#5" ∧ rle_encode "555" = .ok "##00#53" ∧
    rle_encode "B12" = .ok "##00B#1#2" := by
  refine ⟨?_, ?_, ?_, ?_, ?_, ?_, ?_⟩ <;>
    simp +decide [rle_encode, encodeRuns, emitRun, encodeToken, countDigits,
      natDigits, header, Nat.digitChar]

/-- Claim C5: escape validation — in any header-bearing stream whose body
parses up to an escape `#` that is the last character of the stream,
`rle_decode` raises the dangling-escape error, and when such a `#` is
instead followed by a character that is neither `#` nor a digit
(Python's `str.isdigit`), `rle_decode` raises the invalid-escape error;
in particular `decode("##00#")` fails with `DanglingEscape` and
`decode("##00#x")` fails with `InvalidEscape`. -/
theorem escape_validation :
    rle_decode "##00#" = .error .danglingEscape ∧
    rle_decode "##00#x" = .error .invalidEscape ∧
    (∀ b t : List Char, decodeBody b = .ok t →
      rle_decode ⟨header ++ (b ++ ['#'])⟩ = .error .danglingEscape) ∧
    (∀ b t : List Char, decodeBody b = .ok t →
      ∀ c : Char, c ≠ '#' → isPyDigit c = false → ∀ rest : List Char,
        rle_decode ⟨header ++ (b ++ '#' :: c :: rest)⟩ =
          .error .invalidEscape) := by
  refine ⟨?_, ?_, ?_, ?_⟩
  · simp +decide [rle_decode, decodeBody, header, Except.map]
  · simp +decide [rle_decode, decodeBody, header, Except.map]
  · intro b t ht
    rw [rle_decode_header_append, decodeBody_append_hash b t ht [],
      decodeBody_cons_hash_nil]
    rfl
  · intro b t ht c hc hd rest
    rw [rle_decode_header_append, decodeBody_append_hash b t ht (c :: rest),
      decodeBody_cons_hash_invalid c hc hd rest]
    rfl

theorem escape_validation_witness :
    decodeBody ['A'] = .ok ['A'] ∧
    rle_decode ⟨header ++ (['A'] ++ ['#'])⟩ = .error .danglingEscape ∧
    rle_decode ⟨header ++ (['A'] ++ '#' :: 'x' :: [])⟩ =
      .error .invalidEscape := by
  have hA : decodeBody ['A'] = .ok ['A'] := by
    simp +decide [decodeBody, readCount, Except.map]
  exact ⟨hA, escape_validation.2.2.1 ['A'] ['A'] hA,
    escape_validation.2.2.2 ['A'] ['A'] hA 'x' (by decide) (by decide) []⟩

/-- Claim C6: every string that does not begin with the exact 4-character
header `##00` is rejected by `rle_decode` with the missing-header error;
in particular `decode("A4")` fails. -/
theorem missing_header_rejected (s : String) (h : s.data.take 4 ≠ header) :
    rle_decode s = .error .missingHeader := by
  rw [rle_decode, if_neg h]

theorem missing_header_rejected_witness :
    ("A4" : String).data.take 4 ≠ header ∧
    rle_decode "A4" = .error .missingHeader :=
  ⟨by decide, missing_header_rejected "A4" (by decide)⟩

/-- Claim C7: `rle_encode` fails exactly on the empty string —
`encode("")` is the empty-input error, and every non-empty string encodes
without error. -/
theorem encode_empty_iff_error :
    rle_encode "" = .error .emptyInput ∧
    ∀ s : String, s ≠ "" → ∃ out, rle_encode s = .ok out := by
  refine ⟨rfl, fun s hs => ?_⟩
  obtain ⟨c, rest, hdata⟩ := data_eq_cons_of_ne_empty s hs
  exact ⟨⟨header ++ encodeRuns c 1 rest⟩, by simp only [rle_encode, hdata]⟩

theorem encode_empty_iff_error_witness :
    ("A" : String) ≠ "" ∧ ∃ out, rle_encode "A" = .ok out :=
  ⟨by decide, encode_empty_iff_error.2 "A" (by decide)⟩

/-- Claim C8: header invariant — for every non-empty `s`, `rle_encode s`
returns a string whose first four characters are `##00`. -/
theorem encode_starts_with_header (s : String) (h : s ≠ "") :
    ∃ out, rle_encode s = .ok out ∧ out.data.take 4 = "##00".data := by
  obtain ⟨c, rest, hdata⟩ := data_eq_cons_of_ne_empty s h
  refine ⟨⟨header ++ encodeRuns c 1 rest⟩, by simp only [rle_encode, hdata], ?_⟩
  exact List.take_left' (show List.length header = 4 from rfl)

theorem encode_starts_with_header_witness : ("#" : String) ≠ "" ∧
    ∃ out, rle_encode "#" = .ok out ∧ out.data.take 4 = "##00".data :=
  ⟨by decide, encode_starts_with_header "#" (by decide)⟩

/-- Claim C9: compression identity for singleton runs — if no character of
the non-empty string `s` equals its immediate successor, `rle_encode s` is
the header followed by exactly one per-character token representation
(`_encode_token`) for each character of `s`, with no count digits. -/
theorem singleton_runs_identity (s : String) (h : s ≠ "")
    (hc : List.Chain' (fun a b => a ≠ b) s.data) :
    rle_encode s = .ok ⟨header ++ (s.data.map encodeToken).flatten⟩ := by
  obtain ⟨c, rest, hdata⟩ := data_eq_cons_of_ne_empty s h
  rw [hdata] at hc
  simp only [rle_encode, hdata, encodeRuns_of_chain rest c hc]
  simp

theorem singleton_runs_identity_witness : ("B12" : String) ≠ "" ∧
    List.Chain' (fun a b => a ≠ b) ("B12" : String).data ∧
    rle_encode "B12" = .ok ⟨header ++ (("B12" : String).data.map encodeToken).flatten⟩ :=
  ⟨by decide, by simp [List.chain'_cons],
    singleton_runs_identity "B12" (by decide) (by simp [List.chain'_cons])⟩

/-- Claim C10: a stream consisting of only the header decodes without
error to the empty string: `rle_decode "##00" = ok ""`. -/
theorem decode_header_only_empty : rle_decode "##00" = .ok "" := by
  simp +decide [rle_decode, decodeBody, header, Except.map]

end Rle
